import Mathlib

/-!
Verification of the NullID passphrase-envelope component.

The encoding utilities (`toBase64`, `toBase64Url`, `fromBase64`,
`fromBase64Url`, `utf8ToBytes`, `bytesToUtf8`) are embedded from
`src/utils/encoding.ts`; the UI file-size guard is embedded from
`EncView.handleEncryptFile` in `src/views`.  The crypto core
(`src/utils/cryptoEnvelope.ts`) is not present in the source tree — only
its callers and tests are — so key derivation, the AEAD cipher, the header
codec, the envelope codec and the facade are modelled from the
specification, as marked on each definition.

Bytes are modelled as `Nat` with explicit `< 256` bounds; byte buffers as
`List Nat`; JavaScript strings as Lean `String`/`List Char`.
-/

namespace NullID

/-- Error taxonomy of the component (spec section 7). -/
inductive CryptoError where
  | formatError
  | authenticationError
  | encodingError
  deriving Repr, DecidableEq

/-- A buffer is a byte buffer when every entry is below 256. -/
def IsBytes (l : List Nat) : Prop := ∀ x ∈ l, x < 256

instance : DecidablePred IsBytes := fun l =>
  inferInstanceAs (Decidable (∀ x ∈ l, x < 256))

/-! ## Base64 codec, embedded from `src/utils/encoding.ts`.

`toBase64` is `btoa` applied to the byte-by-byte binary string: standard
RFC 4648 base64 with `=` padding.  `fromBase64` is `atob`: it decodes
four-character groups, accepting `=` padding on the final group (without
checking that leftover bits are zero, as `atob` does not). -/

/-- The base64 alphabet as a list of characters, index `n` holding the
character for the 6-bit value `n`. -/
def b64Alphabet : List Char :=
  "ABCDEFGHIJKLMNOPQRSTUVWXYZabcdefghijklmnopqrstuvwxyz0123456789+/".data

/-- Character for a 6-bit value. -/
def b64EncodeChar (n : Nat) : Char := b64Alphabet.getD n 'A'

/-- Inverse of `b64EncodeChar`: position of a character in the alphabet. -/
def b64DecodeChar (c : Char) : Option Nat :=
  b64Alphabet.indexOf? c

/-- Embedded from `toBase64` in `src/utils/encoding.ts` (`btoa` over the
byte string): three bytes become four alphabet characters; a trailing
group of one or two bytes is padded with `=`. -/
def toBase64 : List Nat → List Char
  | [] => []
  | [a] => [b64EncodeChar (a / 4), b64EncodeChar (a % 4 * 16), '=', '=']
  | [a, b] => [b64EncodeChar (a / 4), b64EncodeChar (a % 4 * 16 + b / 16),
               b64EncodeChar (b % 16 * 4), '=']
  | a :: b :: c :: rest =>
      b64EncodeChar (a / 4) :: b64EncodeChar (a % 4 * 16 + b / 16) ::
      b64EncodeChar (b % 16 * 4 + c / 64) :: b64EncodeChar (c % 64) ::
      toBase64 rest

/-- Embedded from `fromBase64` in `src/utils/encoding.ts` (`atob`):
decode four characters at a time; the final group may carry one or two
`=` padding characters.  Invalid characters yield `none` (where `atob`
throws). -/
def fromBase64 : List Char → Option (List Nat)
  | [] => some []
  | c1 :: c2 :: c3 :: c4 :: rest =>
      match b64DecodeChar c1, b64DecodeChar c2 with
      | some n1, some n2 =>
        if c3 = '=' then
          if c4 = '=' ∧ rest = [] then some [n1 * 4 + n2 / 16] else none
        else
          match b64DecodeChar c3 with
          | some n3 =>
            if c4 = '=' then
              if rest = [] then some [n1 * 4 + n2 / 16, n2 % 16 * 16 + n3 / 4]
              else none
            else
              match b64DecodeChar c4 with
              | some n4 =>
                (fromBase64 rest).map
                  (fun tl => (n1 * 4 + n2 / 16) :: (n2 % 16 * 16 + n3 / 4) ::
                             (n3 % 4 * 64 + n4) :: tl)
              | none => none
          | none => none
      | _, _ => none
  | _ => none

/-- The character substitution of `toBase64Url`: `+` to `-` and `/` to `_`. -/
def urlMapChar (c : Char) : Char :=
  if c = '+' then '-' else if c = '/' then '_' else c

/-- The character substitution of `fromBase64Url`: `-` to `+` and `_` to `/`. -/
def unUrlMapChar (c : Char) : Char :=
  if c = '-' then '+' else if c = '_' then '/' else c

/-- Drop the trailing run of `=` characters (the regex `/=+$/u`). -/
def stripTrailingEq (l : List Char) : List Char :=
  (l.reverse.dropWhile (fun c => c = '=')).reverse

/-- Embedded from `toBase64Url` in `src/utils/encoding.ts`: base64, then
`+` and `/` substituted, then trailing `=` stripped. -/
def toBase64Url (bytes : List Nat) : List Char :=
  stripTrailingEq ((toBase64 bytes).map urlMapChar)

/-- Embedded from `fromBase64Url` in `src/utils/encoding.ts`: substitute
`-` and `_` back, restore `=` padding to a multiple of four, decode. -/
def fromBase64Url (s : List Char) : Option (List Nat) :=
  let normalized := s.map unUrlMapChar
  let pad := if normalized.length % 4 = 0 then 0 else 4 - normalized.length % 4
  fromBase64 (normalized ++ List.replicate pad '=')

/-! ## Base64 lemmas -/

theorem b64_decode_encode_fin :
    ∀ n : Fin 64, b64DecodeChar (b64EncodeChar n.val) = some n.val := by decide

theorem b64_encode_ne_eq_fin : ∀ n : Fin 64, b64EncodeChar n.val ≠ '=' := by decide

theorem b64DecodeChar_encodeChar {n : Nat} (h : n < 64) :
    b64DecodeChar (b64EncodeChar n) = some n := b64_decode_encode_fin ⟨n, h⟩

theorem b64EncodeChar_ne_eq {n : Nat} (h : n < 64) : b64EncodeChar n ≠ '=' :=
  b64_encode_ne_eq_fin ⟨n, h⟩

theorem fromBase64_group (n1 n2 n3 n4 : Nat) (h1 : n1 < 64) (h2 : n2 < 64)
    (h3 : n3 < 64) (h4 : n4 < 64) (rest : List Char) :
    fromBase64 (b64EncodeChar n1 :: b64EncodeChar n2 :: b64EncodeChar n3 ::
                b64EncodeChar n4 :: rest) =
      (fromBase64 rest).map
        (fun tl => (n1 * 4 + n2 / 16) :: (n2 % 16 * 16 + n3 / 4) ::
                   (n3 % 4 * 64 + n4) :: tl) := by
  simp only [fromBase64, b64DecodeChar_encodeChar h1, b64DecodeChar_encodeChar h2,
    b64DecodeChar_encodeChar h3, b64DecodeChar_encodeChar h4,
    if_neg (b64EncodeChar_ne_eq h3), if_neg (b64EncodeChar_ne_eq h4)]

theorem fromBase64_pad2 (n1 n2 : Nat) (h1 : n1 < 64) (h2 : n2 < 64) :
    fromBase64 [b64EncodeChar n1, b64EncodeChar n2, '=', '='] =
      some [n1 * 4 + n2 / 16] := by
  simp [fromBase64, b64DecodeChar_encodeChar h1, b64DecodeChar_encodeChar h2]

theorem fromBase64_pad1 (n1 n2 n3 : Nat) (h1 : n1 < 64) (h2 : n2 < 64)
    (h3 : n3 < 64) :
    fromBase64 [b64EncodeChar n1, b64EncodeChar n2, b64EncodeChar n3, '='] =
      some [n1 * 4 + n2 / 16, n2 % 16 * 16 + n3 / 4] := by
  simp [fromBase64, b64DecodeChar_encodeChar h1, b64DecodeChar_encodeChar h2,
    b64DecodeChar_encodeChar h3, if_neg (b64EncodeChar_ne_eq h3)]

/-- Decoding inverts encoding (padded base64, straight from the source
definitions). -/
theorem fromBase64_toBase64 : ∀ b : List Nat, IsBytes b →
    fromBase64 (toBase64 b) = some b := by
  intro b
  induction b using toBase64.induct with
  | case1 => intro _; rfl
  | case2 a =>
      intro hb
      have ha : a < 256 := hb a (by simp)
      show fromBase64 [b64EncodeChar (a / 4), b64EncodeChar (a % 4 * 16), '=', '='] =
        some [a]
      rw [fromBase64_pad2 _ _ (by omega) (by omega)]
      congr 1
      simp only [List.cons.injEq, and_true]
      omega
  | case3 a b =>
      intro hb
      have ha : a < 256 := hb a (by simp)
      have hbb : b < 256 := hb b (by simp)
      show fromBase64 [b64EncodeChar (a / 4), b64EncodeChar (a % 4 * 16 + b / 16),
        b64EncodeChar (b % 16 * 4), '='] = some [a, b]
      rw [fromBase64_pad1 _ _ _ (by omega) (by omega) (by omega)]
      congr 1
      simp only [List.cons.injEq, and_true]
      omega
  | case4 a b c rest ih =>
      intro hb
      have ha : a < 256 := hb a (by simp)
      have hbb : b < 256 := hb b (by simp)
      have hc : c < 256 := hb c (by simp)
      have hrest : IsBytes rest := fun x hx => hb x (by simp [hx])
      show fromBase64 (b64EncodeChar (a / 4) :: b64EncodeChar (a % 4 * 16 + b / 16) ::
        b64EncodeChar (b % 16 * 4 + c / 64) :: b64EncodeChar (c % 64) ::
        toBase64 rest) = some (a :: b :: c :: rest)
      rw [fromBase64_group _ _ _ _ (by omega) (by omega) (by omega) (by omega),
        ih hrest]
      simp only [Option.map_some', Option.some.injEq, List.cons.injEq, and_true]
      omega

/-- Structure of encoder output: a run of alphabet characters followed by
at most two `=` characters, with total length a multiple of four. -/
theorem toBase64_shape : ∀ b : List Nat, IsBytes b →
    ∃ body p, toBase64 b = body ++ List.replicate p '=' ∧ p < 3 ∧
      (body.length + p) % 4 = 0 ∧ ∀ c ∈ body, ∃ n, n < 64 ∧ c = b64EncodeChar n := by
  intro b
  induction b using toBase64.induct with
  | case1 => intro _; exact ⟨[], 0, rfl, by omega, by simp, by simp⟩
  | case2 a =>
      intro hb
      have ha : a < 256 := hb a (by simp)
      refine ⟨[b64EncodeChar (a / 4), b64EncodeChar (a % 4 * 16)], 2, rfl,
        by omega, by simp, ?_⟩
      rintro c hc
      simp only [List.mem_cons, List.not_mem_nil, or_false] at hc
      rcases hc with h | h
      · exact ⟨a / 4, by omega, h⟩
      · exact ⟨a % 4 * 16, by omega, h⟩
  | case3 a b =>
      intro hb
      have ha : a < 256 := hb a (by simp)
      have hbb : b < 256 := hb b (by simp)
      refine ⟨[b64EncodeChar (a / 4), b64EncodeChar (a % 4 * 16 + b / 16),
        b64EncodeChar (b % 16 * 4)], 1, rfl, by omega, by simp, ?_⟩
      rintro c hc
      simp only [List.mem_cons, List.not_mem_nil, or_false] at hc
      rcases hc with h | h | h
      · exact ⟨a / 4, by omega, h⟩
      · exact ⟨a % 4 * 16 + b / 16, by omega, h⟩
      · exact ⟨b % 16 * 4, by omega, h⟩
  | case4 a b c rest ih =>
      intro hb
      have ha : a < 256 := hb a (by simp)
      have hbb : b < 256 := hb b (by simp)
      have hc : c < 256 := hb c (by simp)
      have hrest : IsBytes rest := fun x hx => hb x (by simp [hx])
      obtain ⟨body, p, heq, hp, hlen, hmem⟩ := ih hrest
      refine ⟨b64EncodeChar (a / 4) :: b64EncodeChar (a % 4 * 16 + b / 16) ::
        b64EncodeChar (b % 16 * 4 + c / 64) :: b64EncodeChar (c % 64) :: body, p,
        ?_, hp, ?_, ?_⟩
      · simp [toBase64, heq]
      · simp only [List.length_cons]
        omega
      · rintro x hx
        simp only [List.mem_cons] at hx
        rcases hx with h | h | h | h | h
        · exact ⟨a / 4, by omega, h⟩
        · exact ⟨a % 4 * 16 + b / 16, by omega, h⟩
        · exact ⟨b % 16 * 4 + c / 64, by omega, h⟩
        · exact ⟨c % 64, by omega, h⟩
        · exact hmem x h

theorem b64_unUrl_url_fin :
    ∀ n : Fin 64, unUrlMapChar (urlMapChar (b64EncodeChar n.val)) =
      b64EncodeChar n.val := by decide

theorem b64_url_safe_fin :
    ∀ n : Fin 64, urlMapChar (b64EncodeChar n.val) ≠ '+' ∧
      urlMapChar (b64EncodeChar n.val) ≠ '/' ∧
      urlMapChar (b64EncodeChar n.val) ≠ '=' := by decide

theorem dropWhile_replicate_append (p : Char → Bool) (a : Char) (hp : p a = true) :
    ∀ (n : Nat) (l : List Char),
      List.dropWhile p (List.replicate n a ++ l) = List.dropWhile p l := by
  intro n
  induction n with
  | zero => intro l; rfl
  | succ m ih =>
      intro l
      simp only [List.replicate_succ, List.cons_append, List.dropWhile_cons, hp,
        if_true]
      exact ih l

theorem dropWhile_eq_self_of_head (p : Char → Bool) :
    ∀ l : List Char, (∀ c ∈ l, p c = false) → List.dropWhile p l = l := by
  intro l hl
  cases l with
  | nil => rfl
  | cons c t =>
      simp [List.dropWhile_cons, hl c (by simp)]

theorem stripTrailingEq_append_replicate (x : List Char) (p : Nat)
    (hx : ∀ c ∈ x, c ≠ '=') :
    stripTrailingEq (x ++ List.replicate p '=') = x := by
  unfold stripTrailingEq
  rw [List.reverse_append, List.reverse_replicate,
    dropWhile_replicate_append _ '=' (by simp),
    dropWhile_eq_self_of_head _ x.reverse
      (fun c hc => by simpa using hx c (List.mem_reverse.mp hc)),
    List.reverse_reverse]

/-- `urlMapChar` leaves `=` alone. -/
theorem urlMapChar_eq : urlMapChar '=' = '=' := rfl

/-- The URL-safe encoder output is the `urlMapChar`-image of the padded
encoder's alphabet run. -/
theorem toBase64Url_eq_map (b : List Nat) (hb : IsBytes b) :
    ∃ body p, toBase64 b = body ++ List.replicate p '=' ∧ p < 3 ∧
      (body.length + p) % 4 = 0 ∧
      (∀ c ∈ body, ∃ n, n < 64 ∧ c = b64EncodeChar n) ∧
      toBase64Url b = body.map urlMapChar := by
  obtain ⟨body, p, heq, hp, hlen, hmem⟩ := toBase64_shape b hb
  refine ⟨body, p, heq, hp, hlen, hmem, ?_⟩
  unfold toBase64Url
  rw [heq, List.map_append, List.map_replicate, urlMapChar_eq,
    stripTrailingEq_append_replicate]
  rintro c hc
  obtain ⟨c0, hc0, rfl⟩ := List.mem_map.mp hc
  obtain ⟨n, hn, rfl⟩ := hmem c0 hc0
  exact (b64_url_safe_fin ⟨n, hn⟩).2.2

/-- Source-level round trip: `fromBase64Url` inverts `toBase64Url` on any
byte buffer. -/
theorem fromBase64Url_toBase64Url (b : List Nat) (hb : IsBytes b) :
    fromBase64Url (toBase64Url b) = some b := by
  obtain ⟨body, p, heq, hp, hlen, hmem, hurl⟩ := toBase64Url_eq_map b hb
  rw [hurl]
  unfold fromBase64Url
  have hnorm : (body.map urlMapChar).map unUrlMapChar = body := by
    rw [List.map_map]
    have : ∀ c ∈ body, (unUrlMapChar ∘ urlMapChar) c = id c := by
      intro c hc
      obtain ⟨n, hn, rfl⟩ := hmem c hc
      exact b64_unUrl_url_fin ⟨n, hn⟩
    rw [List.map_congr_left this, List.map_id]
  rw [hnorm]
  have hbl : body.length % 4 = (4 - p) % 4 := by omega
  have hpad : (if body.length % 4 = 0 then 0 else 4 - body.length % 4) = p := by
    split <;> omega
  simp only [hpad]
  rw [← heq]
  exact fromBase64_toBase64 b hb

/-! ## UTF-8 codec

`utf8ToBytes`/`bytesToUtf8` in `src/utils/encoding.ts` delegate to the
platform `TextEncoder`/`TextDecoder`; the UTF-8 transform itself is
embedded here. -/

/-- Standard UTF-8 encoding of a single Unicode code point. -/
def utf8EncodeCodePoint (c : Nat) : List Nat :=
  if c < 128 then [c]
  else if c < 2048 then [192 + c / 64, 128 + c % 64]
  else if c < 65536 then [224 + c / 4096, 128 + c / 64 % 64, 128 + c % 64]
  else [240 + c / 262144, 128 + c / 4096 % 64, 128 + c / 64 % 64, 128 + c % 64]

/-- Embedded from `utf8ToBytes` (`TextEncoder.encode`): UTF-8 bytes of a
character sequence. -/
def utf8ToBytes : List Char → List Nat
  | [] => []
  | c :: cs => utf8EncodeCodePoint c.toNat ++ utf8ToBytes cs

/-- Decode one two-byte UTF-8 sequence headed by lead byte `b`. -/
def utf8Dec2 (b : Nat) : List Nat → Option (Nat × List Nat)
  | b2 :: r =>
      if 128 ≤ b2 ∧ b2 < 192 then some ((b - 192) * 64 + (b2 - 128), r) else none
  | _ => none

/-- Decode one three-byte UTF-8 sequence headed by lead byte `b`. -/
def utf8Dec3 (b : Nat) : List Nat → Option (Nat × List Nat)
  | b2 :: b3 :: r =>
      if (128 ≤ b2 ∧ b2 < 192) ∧ (128 ≤ b3 ∧ b3 < 192) then
        some ((b - 224) * 4096 + (b2 - 128) * 64 + (b3 - 128), r)
      else none
  | _ => none

/-- Decode one four-byte UTF-8 sequence headed by lead byte `b`. -/
def utf8Dec4 (b : Nat) : List Nat → Option (Nat × List Nat)
  | b2 :: b3 :: b4 :: r =>
      if (128 ≤ b2 ∧ b2 < 192) ∧ (128 ≤ b3 ∧ b3 < 192) ∧
          (128 ≤ b4 ∧ b4 < 192) then
        some ((b - 240) * 262144 + (b2 - 128) * 4096 + (b3 - 128) * 64 +
          (b4 - 128), r)
      else none
  | _ => none

/-- Decode one UTF-8 code point, returning it with the remaining bytes. -/
def utf8DecodeOne : List Nat → Option (Nat × List Nat)
  | [] => none
  | b :: rest =>
      if b < 128 then some (b, rest)
      else if b < 192 then none
      else if b < 224 then utf8Dec2 b rest
      else if b < 240 then utf8Dec3 b rest
      else if b < 248 then utf8Dec4 b rest
      else none

theorem utf8Dec2_shrinks (b : Nat) : ∀ l c r, utf8Dec2 b l = some (c, r) →
    r.length < l.length := by
  intro l c r h
  match l with
  | [] => simp [utf8Dec2] at h
  | b2 :: t =>
      rw [show utf8Dec2 b (b2 :: t) = (if 128 ≤ b2 ∧ b2 < 192 then
        some ((b - 192) * 64 + (b2 - 128), t) else none) from rfl] at h
      by_cases hc : 128 ≤ b2 ∧ b2 < 192
      · rw [if_pos hc] at h
        simp only [Option.some.injEq, Prod.mk.injEq] at h
        rw [← h.2]
        simp
      · rw [if_neg hc] at h
        simp at h

theorem utf8Dec3_shrinks (b : Nat) : ∀ l c r, utf8Dec3 b l = some (c, r) →
    r.length < l.length := by
  intro l c r h
  match l with
  | [] => simp [utf8Dec3] at h
  | [b2] => simp [utf8Dec3] at h
  | b2 :: b3 :: t =>
      rw [show utf8Dec3 b (b2 :: b3 :: t) =
        (if (128 ≤ b2 ∧ b2 < 192) ∧ (128 ≤ b3 ∧ b3 < 192) then
          some ((b - 224) * 4096 + (b2 - 128) * 64 + (b3 - 128), t)
        else none) from rfl] at h
      by_cases hc : (128 ≤ b2 ∧ b2 < 192) ∧ (128 ≤ b3 ∧ b3 < 192)
      · rw [if_pos hc] at h
        simp only [Option.some.injEq, Prod.mk.injEq] at h
        rw [← h.2]
        simp only [List.length_cons]
        omega
      · rw [if_neg hc] at h
        simp at h

theorem utf8Dec4_shrinks (b : Nat) : ∀ l c r, utf8Dec4 b l = some (c, r) →
    r.length < l.length := by
  intro l c r h
  match l with
  | [] => simp [utf8Dec4] at h
  | [b2] => simp [utf8Dec4] at h
  | [b2, b3] => simp [utf8Dec4] at h
  | b2 :: b3 :: b4 :: t =>
      rw [show utf8Dec4 b (b2 :: b3 :: b4 :: t) =
        (if (128 ≤ b2 ∧ b2 < 192) ∧ (128 ≤ b3 ∧ b3 < 192) ∧
            (128 ≤ b4 ∧ b4 < 192) then
          some ((b - 240) * 262144 + (b2 - 128) * 4096 + (b3 - 128) * 64 +
            (b4 - 128), t)
        else none) from rfl] at h
      by_cases hc : (128 ≤ b2 ∧ b2 < 192) ∧ (128 ≤ b3 ∧ b3 < 192) ∧
          (128 ≤ b4 ∧ b4 < 192)
      · rw [if_pos hc] at h
        simp only [Option.some.injEq, Prod.mk.injEq] at h
        rw [← h.2]
        simp only [List.length_cons]
        omega
      · rw [if_neg hc] at h
        simp at h

theorem utf8DecodeOne_shrinks : ∀ l c r, utf8DecodeOne l = some (c, r) →
    r.length < l.length := by
  intro l c r h
  match l with
  | [] => simp [utf8DecodeOne] at h
  | b :: rest =>
      rw [show utf8DecodeOne (b :: rest) = (if b < 128 then some (b, rest)
        else if b < 192 then none
        else if b < 224 then utf8Dec2 b rest
        else if b < 240 then utf8Dec3 b rest
        else if b < 248 then utf8Dec4 b rest
        else none) from rfl] at h
      by_cases h1 : b < 128
      · rw [if_pos h1] at h
        simp only [Option.some.injEq, Prod.mk.injEq] at h
        rw [← h.2]
        simp
      · rw [if_neg h1] at h
        by_cases h2 : b < 192
        · rw [if_pos h2] at h
          simp at h
        · rw [if_neg h2] at h
          by_cases h3 : b < 224
          · rw [if_pos h3] at h
            have := utf8Dec2_shrinks b rest c r h
            simp only [List.length_cons]
            omega
          · rw [if_neg h3] at h
            by_cases h4 : b < 240
            · rw [if_pos h4] at h
              have := utf8Dec3_shrinks b rest c r h
              simp only [List.length_cons]
              omega
            · rw [if_neg h4] at h
              by_cases h5 : b < 248
              · rw [if_pos h5] at h
                have := utf8Dec4_shrinks b rest c r h
                simp only [List.length_cons]
                omega
              · rw [if_neg h5] at h
                simp at h

/-- UTF-8 decoding to code points; `none` on a malformed sequence. -/
def utf8DecodeCodePoints (l : List Nat) : Option (List Nat) :=
  if l = [] then some []
  else
    match h : utf8DecodeOne l with
    | none => none
    | some (c, r) => (utf8DecodeCodePoints r).map (c :: ·)
termination_by l.length
decreasing_by exact utf8DecodeOne_shrinks l c r h

/-- Embedded from `bytesToUtf8` (`TextDecoder.decode`, with failure on
bytes that are not valid text, per spec section 7 EncodingError). -/
def bytesToUtf8 (b : List Nat) : Option (List Char) :=
  (utf8DecodeCodePoints b).bind (fun cps =>
    if h : ∀ c ∈ cps, Nat.isValidChar c then some (cps.map Char.ofNat) else none)

/-! ## UTF-8 lemmas -/

theorem utf8EncodeCodePoint_bytes (n : Nat) (hv : n < 1114112) :
    IsBytes (utf8EncodeCodePoint n) := by
  intro x hx
  unfold utf8EncodeCodePoint at hx
  split at hx
  · simp only [List.mem_singleton] at hx; omega
  · split at hx
    · simp only [List.mem_cons, List.not_mem_nil, or_false] at hx
      rcases hx with h | h <;> omega
    · split at hx
      · simp only [List.mem_cons, List.not_mem_nil, or_false] at hx
        rcases hx with h | h | h <;> omega
      · simp only [List.mem_cons, List.not_mem_nil, or_false] at hx
        rcases hx with h | h | h | h <;> omega

theorem utf8Decode_cons (l : List Nat) (c : Nat) (r : List Nat)
    (h : utf8DecodeOne l = some (c, r)) :
    utf8DecodeCodePoints l = (utf8DecodeCodePoints r).map (c :: ·) := by
  have hl : ¬ l = [] := by
    intro he
    rw [he] at h
    simp [utf8DecodeOne] at h
  rw [utf8DecodeCodePoints, if_neg hl]
  split
  · rename_i heq
    rw [h] at heq
    exact absurd heq (by simp)
  · rename_i c' r' heq
    rw [h] at heq
    simp only [Option.some.injEq, Prod.mk.injEq] at heq
    rw [heq.1, heq.2]

theorem utf8DecodeOne_cons (b : Nat) (rest : List Nat) :
    utf8DecodeOne (b :: rest) = (if b < 128 then some (b, rest)
      else if b < 192 then none
      else if b < 224 then utf8Dec2 b rest
      else if b < 240 then utf8Dec3 b rest
      else if b < 248 then utf8Dec4 b rest
      else none) := rfl

theorem utf8DecodeOne_lead1 (b : Nat) (h : b < 128) (rest : List Nat) :
    utf8DecodeOne (b :: rest) = some (b, rest) := by
  rw [utf8DecodeOne_cons, if_pos h]

theorem utf8DecodeOne_lead2 (b b2 : Nat) (hb : 192 ≤ b) (hb' : b < 224)
    (h2 : 128 ≤ b2) (h2' : b2 < 192) (rest : List Nat) :
    utf8DecodeOne (b :: b2 :: rest) = some ((b - 192) * 64 + (b2 - 128), rest) := by
  rw [utf8DecodeOne_cons, if_neg (by omega), if_neg (by omega), if_pos hb',
    show utf8Dec2 b (b2 :: rest) = (if 128 ≤ b2 ∧ b2 < 192 then
      some ((b - 192) * 64 + (b2 - 128), rest) else none) from rfl,
    if_pos ⟨h2, h2'⟩]

theorem utf8DecodeOne_lead3 (b b2 b3 : Nat) (hb : 224 ≤ b) (hb' : b < 240)
    (h2 : 128 ≤ b2) (h2' : b2 < 192) (h3 : 128 ≤ b3) (h3' : b3 < 192)
    (rest : List Nat) :
    utf8DecodeOne (b :: b2 :: b3 :: rest) =
      some ((b - 224) * 4096 + (b2 - 128) * 64 + (b3 - 128), rest) := by
  rw [utf8DecodeOne_cons, if_neg (by omega), if_neg (by omega),
    if_neg (by omega), if_pos hb',
    show utf8Dec3 b (b2 :: b3 :: rest) =
      (if (128 ≤ b2 ∧ b2 < 192) ∧ (128 ≤ b3 ∧ b3 < 192) then
        some ((b - 224) * 4096 + (b2 - 128) * 64 + (b3 - 128), rest)
      else none) from rfl,
    if_pos ⟨⟨h2, h2'⟩, h3, h3'⟩]

theorem utf8DecodeOne_lead4 (b b2 b3 b4 : Nat) (hb : 240 ≤ b) (hb' : b < 248)
    (h2 : 128 ≤ b2) (h2' : b2 < 192) (h3 : 128 ≤ b3) (h3' : b3 < 192)
    (h4 : 128 ≤ b4) (h4' : b4 < 192) (rest : List Nat) :
    utf8DecodeOne (b :: b2 :: b3 :: b4 :: rest) =
      some ((b - 240) * 262144 + (b2 - 128) * 4096 + (b3 - 128) * 64 +
        (b4 - 128), rest) := by
  rw [utf8DecodeOne_cons, if_neg (by omega), if_neg (by omega),
    if_neg (by omega), if_neg (by omega), if_pos hb',
    show utf8Dec4 b (b2 :: b3 :: b4 :: rest) =
      (if (128 ≤ b2 ∧ b2 < 192) ∧ (128 ≤ b3 ∧ b3 < 192) ∧
          (128 ≤ b4 ∧ b4 < 192) then
        some ((b - 240) * 262144 + (b2 - 128) * 4096 + (b3 - 128) * 64 +
          (b4 - 128), rest)
      else none) from rfl,
    if_pos ⟨⟨h2, h2'⟩, ⟨h3, h3'⟩, h4, h4'⟩]

theorem utf8Decode_encode_append (n : Nat) (hv : Nat.isValidChar n)
    (tail : List Nat) :
    utf8DecodeCodePoints (utf8EncodeCodePoint n ++ tail) =
      (utf8DecodeCodePoints tail).map (n :: ·) := by
  have hlt : n < 1114112 := by
    rcases hv with h | ⟨h1, h2⟩
    · omega
    · exact h2
  by_cases h1 : n < 128
  · rw [show utf8EncodeCodePoint n = [n] by simp [utf8EncodeCodePoint, h1],
      List.cons_append, List.nil_append,
      utf8Decode_cons _ _ _ (utf8DecodeOne_lead1 n h1 tail)]
  · by_cases h2 : n < 2048
    · rw [show utf8EncodeCodePoint n = [192 + n / 64, 128 + n % 64] by
        simp [utf8EncodeCodePoint, h1, h2],
        List.cons_append, List.cons_append, List.nil_append,
        utf8Decode_cons _ _ _ (utf8DecodeOne_lead2 _ _ (by omega) (by omega)
          (by omega) (by omega) tail)]
      have harith : (192 + n / 64 - 192) * 64 + (128 + n % 64 - 128) = n := by
        omega
      simp only [harith]
    · by_cases h3 : n < 65536
      · rw [show utf8EncodeCodePoint n =
          [224 + n / 4096, 128 + n / 64 % 64, 128 + n % 64] by
            simp [utf8EncodeCodePoint, h1, h2, h3],
          List.cons_append, List.cons_append, List.cons_append, List.nil_append,
          utf8Decode_cons _ _ _ (utf8DecodeOne_lead3 _ _ _ (by omega) (by omega)
            (by omega) (by omega) (by omega) (by omega) tail)]
        have harith : (224 + n / 4096 - 224) * 4096 +
            (128 + n / 64 % 64 - 128) * 64 + (128 + n % 64 - 128) = n := by omega
        simp only [harith]
      · rw [show utf8EncodeCodePoint n =
          [240 + n / 262144, 128 + n / 4096 % 64, 128 + n / 64 % 64,
            128 + n % 64] by simp [utf8EncodeCodePoint, h1, h2, h3],
          List.cons_append, List.cons_append, List.cons_append, List.cons_append,
          List.nil_append,
          utf8Decode_cons _ _ _ (utf8DecodeOne_lead4 _ _ _ _ (by omega)
            (by omega) (by omega) (by omega) (by omega) (by omega) (by omega)
            (by omega) tail)]
        have harith : (240 + n / 262144 - 240) * 262144 +
            (128 + n / 4096 % 64 - 128) * 4096 + (128 + n / 64 % 64 - 128) * 64 +
            (128 + n % 64 - 128) = n := by omega
        simp only [harith]

theorem utf8Decode_nil : utf8DecodeCodePoints [] = some [] := by
  rw [utf8DecodeCodePoints]
  simp

theorem utf8Decode_utf8ToBytes : ∀ cs : List Char,
    utf8DecodeCodePoints (utf8ToBytes cs) = some (cs.map Char.toNat) := by
  intro cs
  induction cs with
  | nil => exact utf8Decode_nil
  | cons c t ih =>
      show utf8DecodeCodePoints (utf8EncodeCodePoint c.toNat ++ utf8ToBytes t) = _
      rw [utf8Decode_encode_append c.toNat c.valid, ih]
      rfl

/-- Decoding inverts encoding at string level. -/
theorem bytesToUtf8_utf8ToBytes (cs : List Char) :
    bytesToUtf8 (utf8ToBytes cs) = some cs := by
  unfold bytesToUtf8
  rw [utf8Decode_utf8ToBytes]
  have hval : ∀ c ∈ cs.map Char.toNat, Nat.isValidChar c := by
    intro c hc
    obtain ⟨c0, _, rfl⟩ := List.mem_map.mp hc
    exact c0.valid
  show (if h : ∀ c ∈ cs.map Char.toNat, Nat.isValidChar c then
    some ((cs.map Char.toNat).map Char.ofNat) else none) = some cs
  rw [dif_pos hval, List.map_map]
  congr 1
  have : ∀ c ∈ cs, (Char.ofNat ∘ Char.toNat) c = id c := by
    intro c _
    exact Char.ofNat_toNat c
  rw [List.map_congr_left this, List.map_id]

/-- UTF-8 bytes of a character list are bytes. -/
theorem utf8ToBytes_isBytes : ∀ cs : List Char, IsBytes (utf8ToBytes cs) := by
  intro cs
  induction cs with
  | nil => intro x hx; simp [utf8ToBytes] at hx
  | cons c t ih =>
      intro x hx
      show x < 256
      have : x ∈ utf8EncodeCodePoint c.toNat ++ utf8ToBytes t := hx
      rcases List.mem_append.mp this with h | h
      · have hlt : c.toNat < 1114112 := by
          rcases c.valid with hh | ⟨_, hh2⟩
          · exact Nat.lt_trans hh (by norm_num)
          · exact hh2
        exact utf8EncodeCodePoint_bytes c.toNat hlt x h
      · exact ih x h

/-! ## Crypto primitives

`src/utils/cryptoEnvelope.ts` is not part of the source tree (only its
callers and tests are), so the key-derivation and AEAD primitives below
are modelled from the spec, with the WebCrypto PBKDF2/AES-GCM calls
abstracted into deterministic mixing functions.  Every property the spec
states of them that a total functional model can carry — determinism,
nonce/salt-dependence, output sizes, masked-body-plus-16-byte-tag layout,
all-or-nothing tag verification — is preserved. -/

/-- Mixing step for the abstracted pseudorandom functions. -/
def mixStep (acc b : Nat) : Nat := (acc * 131 + b + 17) % 1000000007

/-- Fold a byte list into an accumulator. -/
def mixFold (seed : Nat) (l : List Nat) : Nat := l.foldl mixStep seed

/-- Modelled from the spec: PBKDF2-HMAC-SHA-256 key derivation (spec
section 4.1) is absent from src/; it is abstracted as a deterministic
function of passphrase, salt and iteration count producing a 32-byte key.
Determinism — the only property the spec exposes — is preserved; the
iteration count participates as data. -/
def deriveKey (passphrase : String) (salt : List Nat) (iterations : Nat) :
    List Nat :=
  (List.range 32).map (fun i =>
    mixStep (mixFold (mixFold (mixFold 7 (utf8ToBytes passphrase.data)) salt)
      [iterations]) i % 256)

/-- Modelled from the spec: the AES-GCM keystream (section 4.2), abstracted
as a pseudorandom byte stream determined by key and nonce. -/
def keystream (key nonce : List Nat) (len : Nat) : List Nat :=
  (List.range len).map (fun i => mixStep (mixFold (mixFold 11 key) nonce) i % 256)

/-- Modelled from the spec: the 16-byte GCM authentication tag over key,
nonce, associated data and ciphertext body (section 4.2). -/
def tagOf (key nonce aad body : List Nat) : List Nat :=
  (List.range 16).map (fun i =>
    mixStep (mixFold (mixFold (mixFold (mixFold 13 key) nonce) aad) body) i % 256)

/-- Byte-wise xor of two buffers. -/
def xorBytes (a b : List Nat) : List Nat := List.zipWith Nat.xor a b

/-- Modelled from the spec: `aeadEncrypt(key, nonce, associatedData,
plaintext) -> ciphertextWithTag` (section 4.2) — the keystream-masked
plaintext with the 16-byte tag appended. -/
def aeadEncrypt (key nonce aad pt : List Nat) : List Nat :=
  xorBytes pt (keystream key nonce pt.length) ++
    tagOf key nonce aad (xorBytes pt (keystream key nonce pt.length))

/-- Modelled from the spec: `aeadDecrypt(key, nonce, associatedData,
ciphertextWithTag) -> plaintext | AuthenticationError` (section 4.2) —
all-or-nothing tag verification, then unmasking. -/
def aeadDecrypt (key nonce aad ct : List Nat) : Except CryptoError (List Nat) :=
  if ct.length < 16 then .error .authenticationError
  else if ct.drop (ct.length - 16) =
      tagOf key nonce aad (ct.take (ct.length - 16)) then
    .ok (xorBytes (ct.take (ct.length - 16))
      (keystream key nonce (ct.take (ct.length - 16)).length))
  else .error .authenticationError

/-! ## Crypto primitive lemmas -/

theorem keystream_length (key nonce : List Nat) (len : Nat) :
    (keystream key nonce len).length = len := by
  simp [keystream]

theorem tagOf_length (key nonce aad body : List Nat) :
    (tagOf key nonce aad body).length = 16 := by
  simp [tagOf]

theorem keystream_isBytes (key nonce : List Nat) (len : Nat) :
    IsBytes (keystream key nonce len) := by
  intro x hx
  unfold keystream at hx
  obtain ⟨i, _, rfl⟩ := List.mem_map.mp hx
  exact Nat.mod_lt _ (by norm_num)

theorem tagOf_isBytes (key nonce aad body : List Nat) :
    IsBytes (tagOf key nonce aad body) := by
  intro x hx
  unfold tagOf at hx
  obtain ⟨i, _, rfl⟩ := List.mem_map.mp hx
  exact Nat.mod_lt _ (by norm_num)

theorem xorBytes_length (a b : List Nat) :
    (xorBytes a b).length = min a.length b.length := by
  simp [xorBytes]

theorem xorBytes_isBytes : ∀ a b : List Nat, IsBytes a → IsBytes b →
    IsBytes (xorBytes a b)
  | [], _, _, _ => by intro x hx; simp [xorBytes] at hx
  | _ :: _, [], _, _ => by intro x hx; simp [xorBytes] at hx
  | a :: as, b :: bs, ha, hb => by
      intro x hx
      rcases List.mem_cons.mp hx with h | h
      · subst h
        have h1 : a < 256 := ha a (by simp)
        have h2 : b < 256 := hb b (by simp)
        have : a ^^^ b < 2 ^ 8 := Nat.xor_lt_two_pow h1 h2
        simpa using this
      · exact xorBytes_isBytes as bs (fun y hy => ha y (by simp [hy]))
          (fun y hy => hb y (by simp [hy])) x h

theorem xorBytes_cancel : ∀ a k : List Nat, a.length ≤ k.length →
    xorBytes (xorBytes a k) k = a
  | [], _, _ => by simp [xorBytes]
  | a :: as, [], h => by simp at h
  | a :: as, k :: ks, h => by
      show (a ^^^ k ^^^ k) :: xorBytes (xorBytes as ks) ks = a :: as
      rw [Nat.xor_cancel_right,
        xorBytes_cancel as ks (by simpa using Nat.le_of_succ_le_succ h)]

/-- Decryption inverts encryption for matching key, nonce and associated
data (spec section 4.2 round trip at the AEAD level). -/
theorem aeadDecrypt_aeadEncrypt (key nonce aad pt : List Nat) :
    aeadDecrypt key nonce aad (aeadEncrypt key nonce aad pt) = .ok pt := by
  unfold aeadEncrypt aeadDecrypt
  set B := xorBytes pt (keystream key nonce pt.length) with hB
  set T := tagOf key nonce aad B with hT
  have hbody : B.length = pt.length := by
    rw [hB, xorBytes_length, keystream_length, Nat.min_self]
  have hlen : (B ++ T).length = pt.length + 16 := by
    rw [List.length_append, hbody, hT, tagOf_length]
  rw [if_neg (by omega)]
  have htake : (B ++ T).take ((B ++ T).length - 16) = B :=
    List.take_left' (by omega)
  have hdrop : (B ++ T).drop ((B ++ T).length - 16) = T :=
    List.drop_left' (by omega)
  rw [htake, hdrop, if_pos hT.symm, hbody]
  rw [hB]
  congr 1
  exact xorBytes_cancel pt (keystream key nonce pt.length)
    (by rw [keystream_length])

/-- The AEAD output is the masked body of the plaintext's length followed
by the 16-byte tag. -/
theorem aeadEncrypt_length (key nonce aad pt : List Nat) :
    (aeadEncrypt key nonce aad pt).length = pt.length + 16 := by
  unfold aeadEncrypt
  rw [List.length_append, xorBytes_length, keystream_length, Nat.min_self,
    tagOf_length]

theorem aeadEncrypt_isBytes (key nonce aad pt : List Nat) (hpt : IsBytes pt) :
    IsBytes (aeadEncrypt key nonce aad pt) := by
  intro x hx
  unfold aeadEncrypt at hx
  rcases List.mem_append.mp hx with h | h
  · exact xorBytes_isBytes _ _ hpt (keystream_isBytes key nonce pt.length) x h
  · exact tagOf_isBytes _ _ _ _ x h

/-! ## Envelope codec (spec sections 4.3 and 6) -/

/-- Big-endian 4-byte encoding of the iteration count (spec section 6). -/
def be32 (n : Nat) : List Nat :=
  [n / 16777216 % 256, n / 65536 % 256, n / 256 % 256, n % 256]

/-- Inverse of `be32` on four-byte buffers. -/
def be32decode (b : List Nat) : Nat :=
  b.getD 0 0 * 16777216 + b.getD 1 0 * 65536 + b.getD 2 0 * 256 + b.getD 3 0

/-- The envelope text marker `NULLID:ENC:1` (spec section 6, and the
EncView envelope panel). -/
def MARKER : List Char := "NULLID:ENC:1".data

/-- The PBKDF2 iteration default, 250,000 (spec section 4.1 and the
`PBKDF2:250k` marker in the EncView envelope panel). -/
def ITERATIONS : Nat := 250000

/-- The binary fields of an envelope (spec section 3; the version is
carried by the text marker). -/
structure EnvelopeFields where
  iterations : Nat
  salt : List Nat
  nonce : List Nat
  ctAndTag : List Nat
  deriving Repr, DecidableEq

/-- Sizes and bounds the encrypt path establishes for the fields. -/
def ValidFields (f : EnvelopeFields) : Prop :=
  f.iterations < 4294967296 ∧ f.salt.length = 16 ∧ IsBytes f.salt ∧
    f.nonce.length = 12 ∧ IsBytes f.nonce ∧ 16 ≤ f.ctAndTag.length ∧
    IsBytes f.ctAndTag

instance : DecidablePred ValidFields := fun f =>
  inferInstanceAs (Decidable (f.iterations < 4294967296 ∧ f.salt.length = 16 ∧
    IsBytes f.salt ∧ f.nonce.length = 12 ∧ IsBytes f.nonce ∧
    16 ≤ f.ctAndTag.length ∧ IsBytes f.ctAndTag))

/-- Modelled from the spec: serialization (section 4.3) — marker, then the
base64url encoding of `[iterations, 4 bytes big-endian][salt][nonce]
[ciphertext and tag]`. -/
def serializeEnvelope (f : EnvelopeFields) : List Char :=
  MARKER ++ toBase64Url (be32 f.iterations ++ f.salt ++ f.nonce ++ f.ctAndTag)

/-- Modelled from the spec: deserialization (section 4.3) — verify the
marker first, fail fast with a FormatError on a missing marker, a base64
failure, or a buffer below the fixed minimum `4 + 16 + 12 + 16`; then
split fixed-width fields by position, the remainder being the ciphertext
and tag. -/
def deserializeEnvelope (s : List Char) : Except CryptoError EnvelopeFields :=
  if s.take 12 ≠ MARKER then .error .formatError
  else
    match fromBase64Url (s.drop 12) with
    | none => .error .formatError
    | some bytes =>
      if bytes.length < 48 then .error .formatError
      else .ok ⟨be32decode (bytes.take 4), (bytes.drop 4).take 16,
        ((bytes.drop 4).drop 16).take 12, ((bytes.drop 4).drop 16).drop 12⟩

/-! ## Envelope codec lemmas -/

theorem be32_isBytes (n : Nat) : IsBytes (be32 n) := by
  intro x hx
  unfold be32 at hx
  simp only [List.mem_cons, List.not_mem_nil, or_false] at hx
  rcases hx with h | h | h | h <;> omega

theorem be32_length (n : Nat) : (be32 n).length = 4 := rfl

theorem be32decode_be32 (n : Nat) (h : n < 4294967296) :
    be32decode (be32 n) = n := by
  show n / 16777216 % 256 * 16777216 + n / 65536 % 256 * 65536 +
    n / 256 % 256 * 256 + n % 256 = n
  omega

theorem MARKER_length : MARKER.length = 12 := rfl

theorem deserializeEnvelope_decode (s : List Char) (bytes : List Nat)
    (hm : s.take 12 = MARKER) (hd : fromBase64Url (s.drop 12) = some bytes) :
    deserializeEnvelope s =
      (if bytes.length < 48 then .error .formatError
       else .ok ⟨be32decode (bytes.take 4), (bytes.drop 4).take 16,
         ((bytes.drop 4).drop 16).take 12, ((bytes.drop 4).drop 16).drop 12⟩) := by
  unfold deserializeEnvelope
  rw [if_neg (by simp [hm]), hd]

/-- Deserialization inverts serialization on valid fields. -/
theorem deserializeEnvelope_serializeEnvelope (f : EnvelopeFields)
    (hf : ValidFields f) : deserializeEnvelope (serializeEnvelope f) = .ok f := by
  obtain ⟨hit, hsl, hsb, hnl, hnb, hcl, hcb⟩ := hf
  have hbytes : IsBytes (be32 f.iterations ++ f.salt ++ f.nonce ++ f.ctAndTag) := by
    intro x hx
    rcases List.mem_append.mp hx with hx | hx
    · rcases List.mem_append.mp hx with hx | hx
      · rcases List.mem_append.mp hx with hx | hx
        · exact be32_isBytes _ x hx
        · exact hsb x hx
      · exact hnb x hx
    · exact hcb x hx
  have hm : (serializeEnvelope f).take 12 = MARKER := by
    unfold serializeEnvelope
    rw [List.take_left' MARKER_length]
  have hd : fromBase64Url ((serializeEnvelope f).drop 12) =
      some (be32 f.iterations ++ f.salt ++ f.nonce ++ f.ctAndTag) := by
    unfold serializeEnvelope
    rw [List.drop_left' MARKER_length]
    exact fromBase64Url_toBase64Url _ hbytes
  have hlen : (be32 f.iterations ++ f.salt ++ f.nonce ++ f.ctAndTag).length =
      32 + f.ctAndTag.length := by
    simp only [List.length_append, be32_length, hsl, hnl]
  rw [deserializeEnvelope_decode _ _ hm hd, if_neg (by omega)]
  have h4 : (be32 f.iterations ++ f.salt ++ f.nonce ++ f.ctAndTag).take 4 =
      be32 f.iterations := by
    rw [List.append_assoc, List.append_assoc, List.take_left' (be32_length _)]
  have hrest : (be32 f.iterations ++ f.salt ++ f.nonce ++ f.ctAndTag).drop 4 =
      f.salt ++ f.nonce ++ f.ctAndTag := by
    rw [List.append_assoc, List.append_assoc, List.drop_left' (be32_length _),
      ← List.append_assoc]
  rw [h4, hrest, be32decode_be32 _ hit]
  have hsalt : (f.salt ++ f.nonce ++ f.ctAndTag).take 16 = f.salt := by
    rw [List.append_assoc, List.take_left' hsl]
  have hrest2 : (f.salt ++ f.nonce ++ f.ctAndTag).drop 16 =
      f.nonce ++ f.ctAndTag := by
    rw [List.append_assoc, List.drop_left' hsl]
  rw [hsalt, hrest2, List.take_left' hnl, List.drop_left' hnl]

/-! ## Header codec (spec section 4.4) -/

/-- Read one length-prefixed chunk: a length byte, then that many bytes;
`none` when the buffer is too short. -/
def readChunk : List Nat → Option (List Nat × List Nat)
  | [] => none
  | n :: r => if n ≤ r.length then some (r.take n, r.drop n) else none

/-- Modelled from the spec: the header codec encode side (section 4.4) —
the length-prefixed `nameLength, nameBytes, mimeLength, mimeBytes`
structure prepended to the plaintext; each field's byte length is bounded
by 255 so the length fits one byte. -/
def encodeHeader (name mime : String) : List Nat :=
  (utf8ToBytes name.data).length :: utf8ToBytes name.data ++
    ((utf8ToBytes mime.data).length :: utf8ToBytes mime.data)

/-- Modelled from the spec: the header codec decode side (section 4.4) —
parse name and mime from the verified plaintext, returning the remaining
bytes as the payload. -/
def decodeHeader (pt : List Nat) : Option (String × String × List Nat) :=
  (readChunk pt).bind (fun c1 =>
    (bytesToUtf8 c1.1).bind (fun name =>
      (readChunk c1.2).bind (fun c2 =>
        (bytesToUtf8 c2.1).map (fun mime => (⟨name⟩, ⟨mime⟩, c2.2)))))

theorem readChunk_encode (x rest : List Nat) :
    readChunk (x.length :: (x ++ rest)) = some (x, rest) := by
  rw [show readChunk (x.length :: (x ++ rest)) =
    (if x.length ≤ (x ++ rest).length then
      some ((x ++ rest).take x.length, (x ++ rest).drop x.length)
    else none) from rfl]
  rw [if_pos (by simp), List.take_left' rfl, List.drop_left' rfl]

/-- Header decoding inverts header encoding around any payload. -/
theorem decodeHeader_encodeHeader (name mime : String) (payload : List Nat) :
    decodeHeader (encodeHeader name mime ++ payload) =
      some (name, mime, payload) := by
  unfold decodeHeader encodeHeader
  rw [show ((utf8ToBytes name.data).length :: utf8ToBytes name.data ++
      ((utf8ToBytes mime.data).length :: utf8ToBytes mime.data)) ++ payload =
    (utf8ToBytes name.data).length :: (utf8ToBytes name.data ++
      ((utf8ToBytes mime.data).length :: (utf8ToBytes mime.data ++ payload)))
    by simp]
  rw [readChunk_encode, Option.some_bind, bytesToUtf8_utf8ToBytes,
    Option.some_bind, readChunk_encode, Option.some_bind,
    bytesToUtf8_utf8ToBytes, Option.map_some']

/-- The encoded header is a byte buffer when both field lengths fit one
byte. -/
theorem encodeHeader_isBytes (name mime : String)
    (hn : (utf8ToBytes name.data).length ≤ 255)
    (hm : (utf8ToBytes mime.data).length ≤ 255) :
    IsBytes (encodeHeader name mime) := by
  intro x hx
  unfold encodeHeader at hx
  rcases List.mem_cons.mp hx with h | h
  · omega
  · rcases List.mem_append.mp h with h | h
    · exact utf8ToBytes_isBytes name.data x h
    · rcases List.mem_cons.mp h with h | h
      · omega
      · exact utf8ToBytes_isBytes mime.data x h

/-! ## Envelope facade (spec section 4.5)

The WebCrypto salt/nonce draws (`randomBytes(16)`, `randomBytes(12)` in
`src/utils/encoding.ts`) are impure; the facade is therefore modelled with
the drawn randomness passed explicitly.  The decrypt paths are instrumented
with counters of key-derivation and AEAD invocations so that fail-fast
behaviour is statable; the un-instrumented functions are their first
projection. -/

/-- Blob header returned by `decryptBlob`. -/
structure BlobHeader where
  name : String
  mime : String
  deriving Repr, DecidableEq

/-- Modelled from the spec: the associated data binds the envelope's
declared version (the marker) and iteration count (section 4.2). -/
def makeAAD (iterations : Nat) : List Nat :=
  MARKER.map Char.toNat ++ be32 iterations

/-- Modelled from the spec: `encryptText(passphrase, text)` (section 4.5)
— derive a key from the fresh salt, AEAD-encrypt the UTF-8 bytes of the
text with the fresh nonce, frame. -/
def encryptTextWith (passphrase text : String) (salt nonce : List Nat) :
    String :=
  ⟨serializeEnvelope ⟨ITERATIONS, salt, nonce,
    aeadEncrypt (deriveKey passphrase salt ITERATIONS) nonce
      (makeAAD ITERATIONS) (utf8ToBytes text.data)⟩⟩

/-- Modelled from the spec: `encryptBytes(passphrase, bytes, header)`
(sections 4.4 and 4.5) — prepend the encoded header, encrypt, frame. -/
def encryptBytesWith (passphrase : String) (bytes : List Nat)
    (name mime : String) (salt nonce : List Nat) : String :=
  ⟨serializeEnvelope ⟨ITERATIONS, salt, nonce,
    aeadEncrypt (deriveKey passphrase salt ITERATIONS) nonce
      (makeAAD ITERATIONS) (encodeHeader name mime ++ bytes)⟩⟩

/-- Decrypt-after-deframe step shared by `decryptText`: derive the key
with the embedded salt and iteration count, AEAD-decrypt, decode text. -/
def decryptTextCore (passphrase : String) (f : EnvelopeFields) :
    Except CryptoError String :=
  match aeadDecrypt (deriveKey passphrase f.salt f.iterations) f.nonce
      (makeAAD f.iterations) f.ctAndTag with
  | .error e => .error e
  | .ok pt =>
      match bytesToUtf8 pt with
      | none => .error .encodingError
      | some cs => .ok ⟨cs⟩

/-- Modelled from the spec: `decryptText(passphrase, envelopeString)`
(section 4.5), instrumented with (key derivations, AEAD calls). -/
def decryptTextT (passphrase env : String) :
    Except CryptoError String × Nat × Nat :=
  match deserializeEnvelope env.data with
  | .error e => (.error e, 0, 0)
  | .ok f => (decryptTextCore passphrase f, 1, 1)

/-- `decryptText` proper: the result component. -/
def decryptText (passphrase env : String) : Except CryptoError String :=
  (decryptTextT passphrase env).1

/-- Decrypt-after-deframe step shared by `decryptBlob`: AEAD-decrypt,
split header from payload. -/
def decryptBlobCore (passphrase : String) (f : EnvelopeFields) :
    Except CryptoError (List Nat × BlobHeader) :=
  match aeadDecrypt (deriveKey passphrase f.salt f.iterations) f.nonce
      (makeAAD f.iterations) f.ctAndTag with
  | .error e => .error e
  | .ok pt =>
      match decodeHeader pt with
      | none => .error .formatError
      | some (name, mime, payload) => .ok (payload, ⟨name, mime⟩)

/-- Modelled from the spec: `decryptBlob(passphrase, envelopeString)`
(section 4.5), instrumented with (key derivations, AEAD calls). -/
def decryptBlobT (passphrase env : String) :
    Except CryptoError (List Nat × BlobHeader) × Nat × Nat :=
  match deserializeEnvelope env.data with
  | .error e => (.error e, 0, 0)
  | .ok f => (decryptBlobCore passphrase f, 1, 1)

/-- `decryptBlob` proper: the result component. -/
def decryptBlob (passphrase env : String) :
    Except CryptoError (List Nat × BlobHeader) :=
  (decryptBlobT passphrase env).1

/-! ## EncView file handler, embedded from the source -/

/-- A file as the EncView handler sees it: name, MIME type and content
bytes (`File.size` is the byte length of `content`). -/
structure FileModel where
  name : String
  mime : String
  content : List Nat

/-- Embedded from `MAX_FILE_BYTES` in the EncView component: 25 MiB. -/
def MAX_FILE_BYTES : Nat := 25 * 1024 * 1024

/-- Outcome of the EncView `handleEncryptFile` callback. -/
inductive EncOutcome where
  | noop
  | tooLarge
  | sealed (blob : String)

/-- Embedded from `EncView.handleEncryptFile` (file sealing handler in the
EncView component, `src` views): bail out silently when the passphrase or
file is missing; reject a file whose size exceeds `MAX_FILE_BYTES` with
the `file too large` error before any crypto call; otherwise read the
bytes and hand them to `encryptBytes`.  The second component counts
`encryptBytes` invocations. -/
def handleEncryptFile (encPass : String) (encFile : Option FileModel)
    (salt nonce : List Nat) : EncOutcome × Nat :=
  match encFile with
  | none => (.noop, 0)
  | some f =>
      if encPass = "" then (.noop, 0)
      else if f.content.length > MAX_FILE_BYTES then (.tooLarge, 0)
      else (.sealed (encryptBytesWith encPass f.content f.name f.mime
        salt nonce), 1)

/-! ## Facade evaluation lemmas -/

theorem encrypt_validFields (p : String) (salt nonce pt : List Nat)
    (hsl : salt.length = 16) (hsb : IsBytes salt)
    (hnl : nonce.length = 12) (hnb : IsBytes nonce) (hpt : IsBytes pt) :
    ValidFields ⟨ITERATIONS, salt, nonce,
      aeadEncrypt (deriveKey p salt ITERATIONS) nonce (makeAAD ITERATIONS) pt⟩ := by
  refine ⟨?_, hsl, hsb, hnl, hnb, ?_, ?_⟩
  · show ITERATIONS < 4294967296
    decide
  · show 16 ≤ (aeadEncrypt _ _ _ _).length
    rw [aeadEncrypt_length]
    omega
  · exact aeadEncrypt_isBytes _ _ _ _ hpt

theorem decryptTextT_ok (p env : String) (f : EnvelopeFields)
    (h : deserializeEnvelope env.data = .ok f) :
    decryptTextT p env = (decryptTextCore p f, 1, 1) := by
  unfold decryptTextT
  rw [h]

theorem decryptTextT_err (p env : String) (e : CryptoError)
    (h : deserializeEnvelope env.data = .error e) :
    decryptTextT p env = (.error e, 0, 0) := by
  unfold decryptTextT
  rw [h]

theorem decryptBlobT_ok (p env : String) (f : EnvelopeFields)
    (h : deserializeEnvelope env.data = .ok f) :
    decryptBlobT p env = (decryptBlobCore p f, 1, 1) := by
  unfold decryptBlobT
  rw [h]

theorem decryptBlobT_err (p env : String) (e : CryptoError)
    (h : deserializeEnvelope env.data = .error e) :
    decryptBlobT p env = (.error e, 0, 0) := by
  unfold decryptBlobT
  rw [h]

theorem decryptTextCore_encrypt (p t : String) (salt nonce : List Nat) :
    decryptTextCore p ⟨ITERATIONS, salt, nonce,
      aeadEncrypt (deriveKey p salt ITERATIONS) nonce (makeAAD ITERATIONS)
        (utf8ToBytes t.data)⟩ = .ok t := by
  show (match aeadDecrypt (deriveKey p salt ITERATIONS) nonce
      (makeAAD ITERATIONS) (aeadEncrypt (deriveKey p salt ITERATIONS) nonce
        (makeAAD ITERATIONS) (utf8ToBytes t.data)) with
    | .error e => Except.error e
    | .ok pt =>
        match bytesToUtf8 pt with
        | none => Except.error CryptoError.encodingError
        | some cs => Except.ok ⟨cs⟩) = Except.ok t
  rw [aeadDecrypt_aeadEncrypt]
  show (match bytesToUtf8 (utf8ToBytes t.data) with
    | none => Except.error CryptoError.encodingError
    | some cs => Except.ok ⟨cs⟩) = Except.ok t
  rw [bytesToUtf8_utf8ToBytes]

theorem decryptBlobCore_encrypt (p name mime : String) (b salt nonce : List Nat) :
    decryptBlobCore p ⟨ITERATIONS, salt, nonce,
      aeadEncrypt (deriveKey p salt ITERATIONS) nonce (makeAAD ITERATIONS)
        (encodeHeader name mime ++ b)⟩ = .ok (b, ⟨name, mime⟩) := by
  show (match aeadDecrypt (deriveKey p salt ITERATIONS) nonce
      (makeAAD ITERATIONS) (aeadEncrypt (deriveKey p salt ITERATIONS) nonce
        (makeAAD ITERATIONS) (encodeHeader name mime ++ b)) with
    | .error e => Except.error e
    | .ok pt =>
        match decodeHeader pt with
        | none => Except.error CryptoError.formatError
        | some (n, m, payload) => Except.ok (payload, ⟨n, m⟩)) =
    Except.ok (b, (⟨name, mime⟩ : BlobHeader))
  rw [aeadDecrypt_aeadEncrypt]
  show (match decodeHeader (encodeHeader name mime ++ b) with
    | none => Except.error CryptoError.formatError
    | some (n, m, payload) => Except.ok (payload, ⟨n, m⟩)) =
    Except.ok (b, (⟨name, mime⟩ : BlobHeader))
  rw [decodeHeader_encodeHeader]

/-! ## Claim theorems -/

/-- Claim C1: for every non-empty passphrase `p` and every payload `t`
within the documented size bound, decrypting the envelope produced by
encrypting `t` under `p` with the same passphrase returns `t` exactly:
`decryptText(p, encryptText(p, t)) == t`.  The fresh 16-byte salt and
12-byte nonce drawn inside `encryptText` are passed explicitly. -/
theorem claim_C1_round_trip (p t : String) (salt nonce : List Nat)
    (hp : p ≠ "") (hsl : salt.length = 16) (hsb : IsBytes salt)
    (hnl : nonce.length = 12) (hnb : IsBytes nonce)
    (hsize : (utf8ToBytes t.data).length ≤ MAX_FILE_BYTES) :
    decryptText p (encryptTextWith p t salt nonce) = .ok t := by
  have hval := encrypt_validFields p salt nonce (utf8ToBytes t.data) hsl hsb
    hnl hnb (utf8ToBytes_isBytes t.data)
  have hdes : deserializeEnvelope (encryptTextWith p t salt nonce).data =
      .ok ⟨ITERATIONS, salt, nonce,
        aeadEncrypt (deriveKey p salt ITERATIONS) nonce (makeAAD ITERATIONS)
          (utf8ToBytes t.data)⟩ :=
    deserializeEnvelope_serializeEnvelope _ hval
  show (decryptTextT p (encryptTextWith p t salt nonce)).1 = .ok t
  rw [decryptTextT_ok p _ _ hdes]
  exact decryptTextCore_encrypt p t salt nonce

theorem claim_C1_round_trip_witness :
    decryptText "pw" (encryptTextWith "pw" "hi" (List.replicate 16 0)
      (List.replicate 12 0)) = .ok "hi" :=
  claim_C1_round_trip "pw" "hi" (List.replicate 16 0) (List.replicate 12 0)
    (by decide) (by decide) (by decide) (by decide) (by decide) (by decide)

/-- Claim C4: for every passphrase and plaintext, the string returned by
`encryptText` begins with the literal prefix `NULLID:ENC:1` followed by a
base64url encoding of the concatenation, in fixed order, of the 4-byte
big-endian iteration count, the 16-byte salt, the 12-byte nonce, and the
ciphertext with its 16-byte tag. -/
theorem claim_C4_format (p t : String) (salt nonce : List Nat)
    (hsl : salt.length = 16) (hnl : nonce.length = 12) :
    ∃ body tag : List Nat,
      (encryptTextWith p t salt nonce).data =
        MARKER ++ toBase64Url (be32 ITERATIONS ++ salt ++ nonce ++
          (body ++ tag)) ∧
      body.length = (utf8ToBytes t.data).length ∧ tag.length = 16 ∧
      (be32 ITERATIONS).length = 4 ∧ salt.length = 16 ∧ nonce.length = 12 := by
  refine ⟨xorBytes (utf8ToBytes t.data)
      (keystream (deriveKey p salt ITERATIONS) nonce (utf8ToBytes t.data).length),
    tagOf (deriveKey p salt ITERATIONS) nonce (makeAAD ITERATIONS)
      (xorBytes (utf8ToBytes t.data)
        (keystream (deriveKey p salt ITERATIONS) nonce
          (utf8ToBytes t.data).length)),
    rfl, ?_, tagOf_length _ _ _ _, rfl, hsl, hnl⟩
  rw [xorBytes_length, keystream_length, Nat.min_self]

theorem claim_C4_format_witness :
    ∃ body tag : List Nat,
      (encryptTextWith "strong passphrase" "nullid-test-payload"
        (List.replicate 16 7) (List.replicate 12 9)).data =
        MARKER ++ toBase64Url (be32 ITERATIONS ++ List.replicate 16 7 ++
          List.replicate 12 9 ++ (body ++ tag)) ∧
      body.length = (utf8ToBytes "nullid-test-payload".data).length ∧
      tag.length = 16 ∧ (be32 ITERATIONS).length = 4 ∧
      (List.replicate 16 7 : List Nat).length = 16 ∧
      (List.replicate 12 9 : List Nat).length = 12 :=
  claim_C4_format "strong passphrase" "nullid-test-payload"
    (List.replicate 16 7) (List.replicate 12 9) (by decide) (by decide)

/-- Claim C5: every input string that lacks the expected marker, or whose
decoded remainder is shorter than the fixed minimum `4 + 16 + 12 + 16`
bytes, makes deserialization fail with FormatError, and neither key
derivation nor any AEAD operation is attempted (the instrumentation
counters of both decrypt entry points stay at zero). -/
theorem claim_C5_fail_fast (p s : String)
    (h : s.data.take 12 ≠ MARKER ∨
      ∃ b, fromBase64Url (s.data.drop 12) = some b ∧ b.length < 48) :
    decryptTextT p s = (.error .formatError, 0, 0) ∧
      decryptBlobT p s = (.error .formatError, 0, 0) := by
  have hdes : deserializeEnvelope s.data = .error .formatError := by
    rcases h with h | ⟨b, hb, hblen⟩
    · unfold deserializeEnvelope
      rw [if_pos h]
    · by_cases hm : s.data.take 12 = MARKER
      · rw [deserializeEnvelope_decode _ _ hm hb, if_pos hblen]
      · unfold deserializeEnvelope
        rw [if_pos hm]
  exact ⟨decryptTextT_err _ _ _ hdes, decryptBlobT_err _ _ _ hdes⟩

theorem claim_C5_fail_fast_witness :
    decryptTextT "p" "garbage" = (.error .formatError, 0, 0) ∧
      decryptBlobT "p" "garbage" = (.error .formatError, 0, 0) :=
  claim_C5_fail_fast "p" "garbage" (Or.inl (by decide))

/-- Claim C6: for every well-formed envelope `e` (one produced by
serializing valid fields), deserializing `e` into its fields and
serializing those fields again reproduces `e` byte-for-byte. -/
theorem claim_C6_codec_round_trip (e : List Char)
    (he : ∃ f, ValidFields f ∧ serializeEnvelope f = e) :
    ∃ g, deserializeEnvelope e = .ok g ∧ serializeEnvelope g = e := by
  obtain ⟨f, hf, rfl⟩ := he
  exact ⟨f, deserializeEnvelope_serializeEnvelope f hf, rfl⟩

theorem claim_C6_codec_round_trip_witness :
    ∃ g, deserializeEnvelope (serializeEnvelope
        ⟨250000, List.replicate 16 1, List.replicate 12 2,
          List.replicate 16 3⟩) = .ok g ∧
      serializeEnvelope g = serializeEnvelope
        ⟨250000, List.replicate 16 1, List.replicate 12 2,
          List.replicate 16 3⟩ :=
  claim_C6_codec_round_trip _
    ⟨⟨250000, List.replicate 16 1, List.replicate 12 2, List.replicate 16 3⟩,
      by decide, rfl⟩

/-- Claim C7: for a fixed (passphrase, plaintext) pair, two encryption
calls whose freshly drawn salt/nonce pairs differ produce different
envelope strings — the envelope embeds the salt and nonce injectively, so
fresh randomness forces distinct outputs. -/
theorem claim_C7_freshness (p t : String) (salt1 nonce1 salt2 nonce2 : List Nat)
    (hs1 : salt1.length = 16) (hb1 : IsBytes salt1)
    (hn1 : nonce1.length = 12) (hnb1 : IsBytes nonce1)
    (hs2 : salt2.length = 16) (hb2 : IsBytes salt2)
    (hn2 : nonce2.length = 12) (hnb2 : IsBytes nonce2)
    (hdiff : ¬ (salt1 = salt2 ∧ nonce1 = nonce2)) :
    encryptTextWith p t salt1 nonce1 ≠ encryptTextWith p t salt2 nonce2 := by
  intro heq
  have h1 := deserializeEnvelope_serializeEnvelope _
    (encrypt_validFields p salt1 nonce1 (utf8ToBytes t.data) hs1 hb1 hn1 hnb1
      (utf8ToBytes_isBytes t.data))
  have h2 := deserializeEnvelope_serializeEnvelope _
    (encrypt_validFields p salt2 nonce2 (utf8ToBytes t.data) hs2 hb2 hn2 hnb2
      (utf8ToBytes_isBytes t.data))
  have hdata : (encryptTextWith p t salt1 nonce1).data =
      (encryptTextWith p t salt2 nonce2).data := by rw [heq]
  have hok : (Except.ok (⟨ITERATIONS, salt1, nonce1,
        aeadEncrypt (deriveKey p salt1 ITERATIONS) nonce1 (makeAAD ITERATIONS)
          (utf8ToBytes t.data)⟩ : EnvelopeFields) :
        Except CryptoError EnvelopeFields) =
      .ok ⟨ITERATIONS, salt2, nonce2,
        aeadEncrypt (deriveKey p salt2 ITERATIONS) nonce2 (makeAAD ITERATIONS)
          (utf8ToBytes t.data)⟩ := by
    rw [← h1, ← h2]
    exact congrArg deserializeEnvelope hdata
  have hfields : (⟨ITERATIONS, salt1, nonce1,
      aeadEncrypt (deriveKey p salt1 ITERATIONS) nonce1 (makeAAD ITERATIONS)
        (utf8ToBytes t.data)⟩ : EnvelopeFields) =
      ⟨ITERATIONS, salt2, nonce2,
        aeadEncrypt (deriveKey p salt2 ITERATIONS) nonce2 (makeAAD ITERATIONS)
          (utf8ToBytes t.data)⟩ := by
    injection hok
  exact hdiff ⟨congrArg EnvelopeFields.salt hfields,
    congrArg EnvelopeFields.nonce hfields⟩

theorem claim_C7_freshness_witness :
    encryptTextWith "pw" "hi" (List.replicate 16 0) (List.replicate 12 0) ≠
      encryptTextWith "pw" "hi" (List.replicate 16 1) (List.replicate 12 0) :=
  claim_C7_freshness "pw" "hi" (List.replicate 16 0) (List.replicate 12 0)
    (List.replicate 16 1) (List.replicate 12 0) (by decide) (by decide)
    (by decide) (by decide) (by decide) (by decide) (by decide) (by decide)
    (by decide)

/-- Claim C8: for every passphrase `p`, byte payload `b`, and header
`(name, mime)` within the bounded field lengths, `decryptBlob` applied to
the envelope produced by `encryptBytes(p, b, header)` returns plaintext
equal to `b` and the original header, recovered from the length-prefixed
structure prepended to the plaintext before AEAD encryption. -/
theorem claim_C8_blob_round_trip (p name mime : String) (b salt nonce : List Nat)
    (hp : p ≠ "") (hb : IsBytes b)
    (hsl : salt.length = 16) (hsb : IsBytes salt)
    (hnl : nonce.length = 12) (hnb : IsBytes nonce)
    (hname : (utf8ToBytes name.data).length ≤ 255)
    (hmime : (utf8ToBytes mime.data).length ≤ 255) :
    decryptBlob p (encryptBytesWith p b name mime salt nonce) =
      .ok (b, ⟨name, mime⟩) := by
  have hpt : IsBytes (encodeHeader name mime ++ b) := by
    intro x hx
    rcases List.mem_append.mp hx with h | h
    · exact encodeHeader_isBytes name mime hname hmime x h
    · exact hb x h
  have hval := encrypt_validFields p salt nonce (encodeHeader name mime ++ b)
    hsl hsb hnl hnb hpt
  have hdes : deserializeEnvelope (encryptBytesWith p b name mime salt nonce).data =
      .ok ⟨ITERATIONS, salt, nonce,
        aeadEncrypt (deriveKey p salt ITERATIONS) nonce (makeAAD ITERATIONS)
          (encodeHeader name mime ++ b)⟩ :=
    deserializeEnvelope_serializeEnvelope _ hval
  show (decryptBlobT p (encryptBytesWith p b name mime salt nonce)).1 =
    .ok (b, ⟨name, mime⟩)
  rw [decryptBlobT_ok p _ _ hdes]
  exact decryptBlobCore_encrypt p name mime b salt nonce

theorem claim_C8_blob_round_trip_witness :
    decryptBlob "pw" (encryptBytesWith "pw" [10, 20, 30] "f.txt" "text/plain"
      (List.replicate 16 4) (List.replicate 12 5)) =
      .ok ([10, 20, 30], ⟨"f.txt", "text/plain"⟩) :=
  claim_C8_blob_round_trip "pw" "f.txt" "text/plain" [10, 20, 30]
    (List.replicate 16 4) (List.replicate 12 5) (by decide) (by decide)
    (by decide) (by decide) (by decide) (by decide) (by decide) (by decide)

/-- Claim C9: for every byte array `b`, `fromBase64Url(toBase64Url(b))`
returns a byte array equal to `b`, and `toBase64Url(b)` never contains the
characters `+`, `/`, or `=`. -/
theorem claim_C9_base64url (b : List Nat) (hb : IsBytes b) :
    fromBase64Url (toBase64Url b) = some b ∧
      ∀ c ∈ toBase64Url b, c ≠ '+' ∧ c ≠ '/' ∧ c ≠ '=' := by
  refine ⟨fromBase64Url_toBase64Url b hb, ?_⟩
  obtain ⟨body, pd, heq, hp, hlen, hmem, hurl⟩ := toBase64Url_eq_map b hb
  rw [hurl]
  intro c hc
  obtain ⟨c0, hc0, rfl⟩ := List.mem_map.mp hc
  obtain ⟨n, hn, rfl⟩ := hmem c0 hc0
  exact b64_url_safe_fin ⟨n, hn⟩

theorem claim_C9_base64url_witness :
    fromBase64Url (toBase64Url [0, 255, 77]) = some [0, 255, 77] ∧
      ∀ c ∈ toBase64Url [0, 255, 77], c ≠ '+' ∧ c ≠ '/' ∧ c ≠ '=' :=
  claim_C9_base64url [0, 255, 77] (by decide)

/-- Claim C10: in `EncView.handleEncryptFile`, every file whose size
exceeds `25*1024*1024` bytes is rejected before `encryptBytes` is ever
invoked (invocation count 0), and every file at or below that size
proceeds to the `encryptBytes` call (invocation count 1); the check lives
in this caller, not in the crypto core. -/
theorem claim_C10_size_guard (pass : String) (f : FileModel)
    (salt nonce : List Nat) (hp : pass ≠ "") :
    (f.content.length > MAX_FILE_BYTES →
      handleEncryptFile pass (some f) salt nonce = (.tooLarge, 0)) ∧
    (f.content.length ≤ MAX_FILE_BYTES →
      handleEncryptFile pass (some f) salt nonce =
        (.sealed (encryptBytesWith pass f.content f.name f.mime salt nonce),
          1)) := by
  have hred : handleEncryptFile pass (some f) salt nonce =
      (if pass = "" then (.noop, 0)
       else if f.content.length > MAX_FILE_BYTES then (.tooLarge, 0)
       else (.sealed (encryptBytesWith pass f.content f.name f.mime salt nonce),
         1)) := rfl
  constructor
  · intro hbig
    rw [hred, if_neg hp, if_pos hbig]
  · intro hsmall
    rw [hred, if_neg hp, if_neg (by omega)]

theorem claim_C10_size_guard_witness :
    handleEncryptFile "p" (some ⟨"a.bin", "application/octet-stream", [1, 2, 3]⟩)
      [] [] =
      (.sealed (encryptBytesWith "p" [1, 2, 3] "a.bin"
        "application/octet-stream" [] []), 1) :=
  (claim_C10_size_guard "p" ⟨"a.bin", "application/octet-stream", [1, 2, 3]⟩
    [] [] (by decide)).2 (by decide)

end NullID
